import Mathlib

/-!
Verification of the ngx-intelligence Queue & Pipeline Orchestrator spec
against the code of the repository.

The repository ships the React frontend (under `frontend/src`); the Python
backend is present only as documentation.  Components whose code is in the
repository (the naming-template renderer of `TemplateInput.tsx`, the API
wrappers `queue.ts` / `documents.ts`, the dashboard trend computation of
`Dashboard.tsx`) are embedded directly from that source.  Components whose
code is not shipped (the Queue Store, the Confidence Aggregator) are
modelled from the specification text, and each such definition says so in
its doc comment.

Strings are embedded as `List Char`; JavaScript numbers used by the claims
only through order comparisons and exact arithmetic are embedded as `ℚ`.
-/

namespace NgxIntel

/-! Definitions.  Components shipped in the repository are embedded from
their source; components shipped only as documentation are modelled from
the specification, as each doc comment states. -/

/-- The characters replaced by `_`: the regex class `[<>:"/\\|?*]`. -/
def badChars : List Char := ['<', '>', ':', '"', '/', '\\', '|', '?', '*']

/-- First pass: `template.replace(/[<>:"/\\|?*]/g, '_')`. -/
def replaceBad (t : List Char) : List Char :=
  t.map fun c => if c ∈ badChars then '_' else c

/-- Second pass: `replace(/_{2,}/g, '_')` — every maximal run of two or more
underscores becomes a single underscore. -/
def collapseU : List Char → List Char
  | [] => []
  | [c] => [c]
  | c :: d :: rest =>
      if c = '_' ∧ d = '_' then collapseU (d :: rest)
      else c :: collapseU (d :: rest)

/-- A character stripped from the ends by the third pass: the class `[_ ]`. -/
def isTrimCh (c : Char) : Bool := c == '_' || c == ' '

/-- Removal of the trailing `[_ ]+` run. -/
def trimTrail : List Char → List Char
  | [] => []
  | c :: cs =>
      let r := trimTrail cs
      if r = [] ∧ isTrimCh c then [] else c :: r

/-- The `cleanTemplate` pass of `TemplateInput.tsx`: the three passes in order
(the leading-`[_ ]+` strip is `dropWhile`, the trailing one `trimTrail`;
the two ends never overlap once the leading run is removed first). -/
def cleanTemplate (t : List Char) : List Char :=
  trimTrail ((collapseU (replaceBad t)).dropWhile isTrimCh)

/-- Adjacent characters are not both underscores. -/
def NotBothU (a b : Char) : Prop := ¬(a = '_' ∧ b = '_')

instance : DecidableRel NotBothU := fun a b => by unfold NotBothU; infer_instance

/-- Whether `pat` is a leading run of `s`. -/
def startsWith : List Char → List Char → Bool
  | [], _ => true
  | _ :: _, [] => false
  | p :: ps, c :: cs => p == c && startsWith ps cs

/-- One JavaScript global literal replace, with explicit fuel. -/
def replaceAllAux (pat rep : List Char) : Nat → List Char → List Char
  | 0, s => s
  | _ + 1, [] => []
  | fuel + 1, c :: cs =>
      if startsWith pat (c :: cs) && !pat.isEmpty then
        rep ++ replaceAllAux pat rep fuel (cs.drop (pat.length - 1))
      else
        c :: replaceAllAux pat rep fuel cs

/-- Literal global replace, as `s.replace(new RegExp(escape(pat), "g"), rep)`. -/
def replaceAll (pat rep s : List Char) : List Char :=
  replaceAllAux pat rep s.length s

/-- The literal token `{key}` built for one `exampleData` entry. -/
def varToken (key : List Char) : List Char := '{' :: (key ++ ['}'])

/-- The substitution loop over the `exampleData` entries, in entry order. -/
def substVars (vars : List (List Char × List Char)) (t : List Char) : List Char :=
  vars.foldl (fun acc kv => replaceAll (varToken kv.1) kv.2 acc) t

/-- The fallback text `No template defined`. -/
def noTemplateMsg : List Char := "No template defined".toList

/-- The `generatePreview` function of `TemplateInput.tsx`: substitute,
clean, then fall back to `No template defined` on an empty result. -/
def generatePreview (vars : List (List Char × List Char)) (t : List Char) :
    List Char :=
  if cleanTemplate (substVars vars t) = [] then noTemplateMsg
  else cleanTemplate (substVars vars t)

/-- The variable assignment of the C3 counterexample: `date` and `title`
entries, `title` mapping to the empty string (the convention the code uses for
a variable with no value). -/
def c3Vars : List (List Char × List Char) :=
  [("date".toList, "2025-01-15".toList), ("title".toList, [])]

/-- The template of the C3 counterexample: `{da{title}te}` as characters. -/
def c3T : List Char :=
  ['{', 'd', 'a', '{', 't', 'i', 't', 'l', 'e', '}', 't', 'e', '}']

/-- Modelled from the spec: the item status of the missing backend Queue Store,
`status ∈ {queued, processing, completed, failed}` (§3). -/
inductive QStatus
  | queued
  | processing
  | completed
  | failed
deriving DecidableEq

/-- Modelled from the spec: the `QueueItem` record of the missing backend Queue Store
(§3). -/
structure QueueItem where
  id : Nat
  documentId : Nat
  priority : Int
  status : QStatus
  queuedAt : Nat
  startedAt : Option Nat
  completedAt : Option Nat
  retryCount : Nat
  lastError : Option (List Char)
deriving DecidableEq

/-- Modelled from the spec: the mutable collection the Queue Store keeps of
`QueueItem`s, in enqueue order. -/
structure QueueState where
  items : List QueueItem
deriving DecidableEq

/-- Modelled from the spec: the claimable items are the queued ones. -/
def isQueuedIt (it : QueueItem) : Bool := decide (it.status = QStatus.queued)

/-- Modelled from the spec: `higherPri a b` holds when `a` is served
strictly before `b` — priority descending, then `queuedAt` ascending. -/
def higherPri (a b : QueueItem) : Bool :=
  decide (b.priority < a.priority) ||
    (decide (a.priority = b.priority) && decide (a.queuedAt < b.queuedAt))

/-- Modelled from the spec: the best claimable item of a list (ties keep
the earlier item). -/
def bestQueued : List QueueItem → Option QueueItem
  | [] => none
  | it :: rest =>
      match bestQueued rest with
      | none => some it
      | some b => if higherPri b it then some b else some it

/-- Modelled from the spec: flip an item to `processing`, stamp `startedAt`. -/
def claimMark (now : Nat) (it : QueueItem) : QueueItem :=
  { it with status := QStatus.processing, startedAt := some now }

/-- Modelled from the spec: `claimNext(workerId)` (§4.1) — in one atomic
step, return the best non-claimed queued item (priority desc then
`queuedAt` asc) flipped to `processing` with `startedAt` set, or `none`.
The worker id does not influence the choice and is omitted. -/
def claimNext (now : Nat) (s : QueueState) : Option QueueItem × QueueState :=
  match bestQueued (s.items.filter isQueuedIt) with
  | none => (none, s)
  | some b =>
      (some (claimMark now b),
       ⟨s.items.map fun j => if j.id = b.id then claimMark now j else j⟩)

/-- The ids handed out by `n` consecutive atomic `claimNext` steps with no
intervening complete/fail/requeue — every earlier claim is still
outstanding when a later one is made. -/
def claimRun (now : Nat) (s : QueueState) : Nat → List Nat
  | 0 => []
  | n + 1 =>
      match claimNext now s with
      | (none, _) => []
      | (some it, s') => it.id :: claimRun now s' n

/-- Some item of the store carries id `i` and is `processing`. -/
def IdProcessing (s : QueueState) (i : Nat) : Prop :=
  ∃ j ∈ s.items, j.id = i ∧ j.status = QStatus.processing

/-- A three-item demonstration store: two queued items with different
priorities and one item already processing; ids are distinct. -/
def demoQueue : QueueState :=
  ⟨[{ id := 1, documentId := 11, priority := 0, status := QStatus.queued,
      queuedAt := 1, startedAt := none, completedAt := none,
      retryCount := 0, lastError := none },
    { id := 2, documentId := 12, priority := 5, status := QStatus.queued,
      queuedAt := 2, startedAt := none, completedAt := none,
      retryCount := 0, lastError := none },
    { id := 3, documentId := 13, priority := 1, status := QStatus.processing,
      queuedAt := 0, startedAt := some 4, completedAt := none,
      retryCount := 0, lastError := none }]⟩

/-- The demonstration store of the C7 witness: the three items of
`demoQueue` plus one completed and one failed record. -/
def c7Demo : QueueState :=
  ⟨demoQueue.items ++
    [{ id := 4, documentId := 14, priority := 0, status := QStatus.completed,
       queuedAt := 3, startedAt := some 4, completedAt := some 6,
       retryCount := 0, lastError := none },
     { id := 5, documentId := 15, priority := 0, status := QStatus.failed,
       queuedAt := 3, startedAt := some 4, completedAt := none,
       retryCount := 2, lastError := some "timeout".toList }]⟩

/-- An item the reset must not disturb: `queued` or `processing`. -/
def inFlight (it : QueueItem) : Bool :=
  decide (it.status = QStatus.queued) || decide (it.status = QStatus.processing)

/-- Modelled from the spec: `resetStats()` — drop the completed and failed
records, keeping in-flight items untouched. -/
def resetStats (s : QueueState) : QueueState := ⟨s.items.filter inFlight⟩

/-- The `stats()` counters of the Queue Store. -/
structure QueueStats where
  queued : Nat
  processing : Nat
  completed : Nat
  failed : Nat
  total : Nat
deriving DecidableEq

/-- Modelled from the spec: `stats() -> {queued, processing, completed,
failed, total}`, counting items by status. -/
def stats (s : QueueState) : QueueStats :=
  { queued := s.items.countP fun it => decide (it.status = QStatus.queued)
  , processing := s.items.countP fun it => decide (it.status = QStatus.processing)
  , completed := s.items.countP fun it => decide (it.status = QStatus.completed)
  , failed := s.items.countP fun it => decide (it.status = QStatus.failed)
  , total := s.items.length }

/-- The confidences of the fields that were actually produced: absent
fields (`none`) are dropped from both the sum and the count. -/
def presentConfidences (l : List (Option ℚ)) : List ℚ := l.filterMap id

/-- Modelled from the spec: `overallConfidence` — the unweighted mean over
the produced fields, or `none` when no field was produced. -/
def overallConfidence (l : List (Option ℚ)) : Option ℚ :=
  if presentConfidences l = [] then none
  else some ((presentConfidences l).sum / (presentConfidences l).length)

/-- Modelled from the spec: the gating outcome of the aggregator. -/
inductive GateDecision
  | autoApply
  | pendingApproval
deriving DecidableEq

/-- Modelled from the spec: the approval gate — `pending_approval` whenever
the approval workflow is enabled, otherwise auto-apply iff the overall
confidence reaches the threshold. -/
def gateDecision (overall threshold : ℚ) (approvalEnabled : Bool) :
    GateDecision :=
  if approvalEnabled then GateDecision.pendingApproval
  else if threshold ≤ overall then GateDecision.autoApply
  else GateDecision.pendingApproval

/-- The `ProcessNowResponse` shape of `frontend/src/api/queue.ts`. -/
structure ProcessNowResponse where
  message : List Char
  queued : Nat
  total_found : Nat
  already_processed : Nat
  already_queued : Nat
deriving DecidableEq

/-- The request body `{ limit }` posted by `processNow`. -/
structure ProcessNowRequest where
  limit : Nat
deriving DecidableEq

/-- The request construction of `queueApi.processNow`: the TypeScript
default parameter `limit: number = 10` makes an omitted argument `10`. -/
def processNowRequest (limit : Option Nat) : ProcessNowRequest :=
  ⟨limit.getD 10⟩

/-- The `TrendData` record of `Dashboard.tsx`, without the display label. -/
structure TrendData where
  isImprovement : Bool
  isNeutral : Bool
deriving DecidableEq

/-- The `calculateConfidenceTrend` function of `Dashboard.tsx`: `undefined` on a null
input; neutral when `|today - yesterday| < 0.01`; otherwise an improvement
iff the change is positive. -/
def calculateConfidenceTrend (today yesterday : Option ℚ) : Option TrendData :=
  match today, yesterday with
  | some t, some y =>
      if |t - y| < 1/100 then some ⟨false, true⟩
      else some ⟨decide (0 < t - y), false⟩
  | _, _ => none

/-- The `calculateProcessingTimeTrend` function of `Dashboard.tsx`: `undefined` on a
null input; neutral when `|today - yesterday| < 100` ms; otherwise an
improvement iff the change is negative (lower is better). -/
def calculateProcessingTimeTrend (today yesterday : Option ℚ) :
    Option TrendData :=
  match today, yesterday with
  | some t, some y =>
      if |t - y| < 100 then some ⟨false, true⟩
      else some ⟨decide (t - y < 0), false⟩
  | _, _ => none

/-- The value returned by `documentsApi.list`. -/
structure ListDocumentsResponse (α : Type) where
  documents : List α
  total : Nat

/-- The wrapping `documentsApi.list` applies to the bare array the backend returns. -/
def wrapDocumentsList {α : Type} (respData : List α) :
    ListDocumentsResponse α :=
  ⟨respData, respData.length⟩

/-! Theorems.  Supporting lemmas come first; each claim then has one
theorem, with a witness or counterexample where required. -/

theorem replaceBad_not_bad {t : List Char} {c : Char}
    (hc : c ∈ replaceBad t) : c ∉ badChars := by
  rcases List.mem_map.1 hc with ⟨a, _, rfl⟩
  by_cases h : a ∈ badChars
  · simp [h]
    decide
  · simp [h]

theorem replaceBad_eq_self {t : List Char} (h : ∀ c ∈ t, c ∉ badChars) :
    replaceBad t = t := by
  induction t with
  | nil => rfl
  | cons a cs ih =>
      have ha := h a (by simp)
      have ihh : replaceBad cs = cs := ih fun c hc => h c (List.mem_cons_of_mem _ hc)
      simp only [replaceBad, List.map_cons] at ihh ⊢
      rw [if_neg ha, ihh]

theorem collapseU_mem {l : List Char} {c : Char} :
    c ∈ collapseU l → c ∈ l := by
  induction l using collapseU.induct with
  | case1 => intro hc; simp [collapseU] at hc
  | case2 d => intro hc; simpa [collapseU] using hc
  | case3 a b rest hab ih =>
      intro hc
      rw [collapseU, if_pos hab] at hc
      rcases hab with ⟨rfl, rfl⟩
      have := ih hc
      simp only [List.mem_cons] at this ⊢
      tauto
  | case4 a b rest hab ih =>
      intro hc
      rw [collapseU, if_neg hab] at hc
      rcases List.mem_cons.1 hc with rfl | hc
      · simp
      · have := ih hc
        simp only [List.mem_cons] at this ⊢
        tauto

theorem collapseU_cons (c : Char) (cs : List Char) :
    ∃ ys, collapseU (c :: cs) = c :: ys := by
  induction cs generalizing c with
  | nil => exact ⟨[], rfl⟩
  | cons d rest ih =>
      by_cases h : c = '_' ∧ d = '_'
      · rw [collapseU, if_pos h]
        rcases ih d with ⟨ys, hys⟩
        exact ⟨ys, by rw [hys, h.1, h.2]⟩
      · exact ⟨collapseU (d :: rest), by rw [collapseU, if_neg h]⟩

theorem collapseU_chain (l : List Char) :
    (collapseU l).Chain' NotBothU := by
  induction l using collapseU.induct with
  | case1 => simp [collapseU]
  | case2 => simp [collapseU]
  | case3 a b rest hab ih => rw [collapseU, if_pos hab]; exact ih
  | case4 a b rest hab ih =>
      rw [collapseU, if_neg hab]
      rcases collapseU_cons b rest with ⟨ys, hys⟩
      rw [hys] at ih ⊢
      exact List.chain'_cons.2 ⟨hab, ih⟩

theorem collapseU_eq_self {l : List Char} (h : l.Chain' NotBothU) :
    collapseU l = l := by
  induction l using collapseU.induct with
  | case1 => rfl
  | case2 => rfl
  | case3 a b rest hab ih =>
      exact absurd (List.chain'_cons.1 h).1 (by simpa [NotBothU] using hab)
  | case4 a b rest hab ih =>
      rw [collapseU, if_neg hab, ih (List.chain'_cons.1 h).2]

theorem trimTrail_front (l : List Char) : ∃ ys, l = trimTrail l ++ ys := by
  induction l with
  | nil => exact ⟨[], rfl⟩
  | cons c cs ih =>
      rw [trimTrail]
      by_cases h : trimTrail cs = [] ∧ isTrimCh c
      · exact ⟨c :: cs, by rw [if_pos h]; rfl⟩
      · rcases ih with ⟨ys, hys⟩
        exact ⟨ys, by rw [if_neg h]; simpa using hys⟩

theorem trimTrail_mem {l : List Char} {c : Char} (hc : c ∈ trimTrail l) :
    c ∈ l := by
  rcases trimTrail_front l with ⟨ys, hys⟩
  rw [hys]
  exact List.mem_append_left _ hc

theorem trimTrail_getLast {l : List Char} {c : Char} :
    (trimTrail l).getLast? = some c → isTrimCh c = false := by
  induction l with
  | nil => intro h; simp [trimTrail] at h
  | cons a cs ih =>
      intro h
      rw [trimTrail] at h
      by_cases hb : trimTrail cs = [] ∧ isTrimCh a
      · rw [if_pos hb] at h; simp at h
      · rw [if_neg hb] at h
        rcases hr : trimTrail cs with _ | ⟨d, ds⟩
        · rw [hr] at h
          have hac : a = c := by simpa using h
          subst hac
          have hta : ¬ isTrimCh a := fun hta => hb ⟨hr, hta⟩
          simpa using hta
        · rw [hr, List.getLast?_cons_cons] at h
          exact ih (by rw [hr]; exact h)

theorem trimTrail_head {l : List Char} (h : trimTrail l ≠ []) :
    (trimTrail l).head? = l.head? := by
  cases l with
  | nil => rfl
  | cons c cs =>
      rw [trimTrail] at h ⊢
      by_cases hb : trimTrail cs = [] ∧ isTrimCh c
      · exact absurd (if_pos hb) h
      · rw [if_neg hb]; rfl

theorem trimTrail_chain {l : List Char} (h : l.Chain' NotBothU) :
    (trimTrail l).Chain' NotBothU := by
  rcases trimTrail_front l with ⟨ys, hys⟩
  have h2 : (trimTrail l ++ ys).Chain' NotBothU := by rw [← hys]; exact h
  exact (List.chain'_append.1 h2).1

theorem trimTrail_eq_self {l : List Char}
    (h : ∀ c, l.getLast? = some c → isTrimCh c = false) :
    trimTrail l = l := by
  induction l with
  | nil => rfl
  | cons a cs ih =>
      rw [trimTrail]
      cases cs with
      | nil =>
          have := h a (by simp)
          simp [trimTrail, this]
      | cons b bs =>
          have hcs : trimTrail (b :: bs) = b :: bs := by
            apply ih
            intro c hc
            exact h c (by rw [List.getLast?_cons_cons]; exact hc)
          rw [hcs]
          simp

theorem dropWhile_chain {l : List Char} (h : l.Chain' NotBothU) :
    (l.dropWhile isTrimCh).Chain' NotBothU :=
  h.suffix (List.dropWhile_suffix isTrimCh)

theorem dropWhile_head {p : Char → Bool} {l : List Char} {c : Char}
    (h : (l.dropWhile p).head? = some c) : p c = false := by
  induction l with
  | nil => simp [List.dropWhile] at h
  | cons a cs ih =>
      rw [List.dropWhile] at h
      by_cases ha : p a
      · rw [ha] at h; simpa using ih (by simpa using h)
      · rw [Bool.not_eq_true] at ha
        rw [ha] at h
        simp only [List.head?_cons, Option.some.injEq] at h
        subst h; exact ha

theorem dropWhile_eq_self {p : Char → Bool} {l : List Char}
    (h : ∀ c, l.head? = some c → p c = false) :
    l.dropWhile p = l := by
  cases l with
  | nil => rfl
  | cons a cs =>
      have := h a rfl
      simp [List.dropWhile, this]

theorem cleanTemplate_props (t : List Char) :
    (∀ c ∈ cleanTemplate t, c ∉ badChars) ∧
    (cleanTemplate t).Chain' NotBothU ∧
    (∀ c, (cleanTemplate t).head? = some c → isTrimCh c = false) ∧
    (∀ c, (cleanTemplate t).getLast? = some c → isTrimCh c = false) := by
  refine ⟨?_, ?_, ?_, ?_⟩
  · intro c hc
    have h1 : c ∈ (collapseU (replaceBad t)).dropWhile isTrimCh := trimTrail_mem hc
    have h2 : c ∈ collapseU (replaceBad t) :=
      (List.dropWhile_suffix isTrimCh).sublist.subset h1
    exact replaceBad_not_bad (collapseU_mem h2)
  · exact trimTrail_chain (dropWhile_chain (collapseU_chain _))
  · intro c hc
    have hne : trimTrail ((collapseU (replaceBad t)).dropWhile isTrimCh) ≠ [] := by
      intro hnil
      rw [cleanTemplate, hnil] at hc
      simp at hc
    rw [cleanTemplate, trimTrail_head hne] at hc
    exact dropWhile_head hc
  · intro c hc
    exact trimTrail_getLast hc

theorem cleanTemplate_idem (t : List Char) :
    cleanTemplate (cleanTemplate t) = cleanTemplate t := by
  obtain ⟨hbad, hchain, hhead, hlast⟩ := cleanTemplate_props t
  show trimTrail ((collapseU (replaceBad (cleanTemplate t))).dropWhile isTrimCh) =
    cleanTemplate t
  rw [replaceBad_eq_self hbad, collapseU_eq_self hchain,
    dropWhile_eq_self hhead, trimTrail_eq_self hlast]

/-- C2: the filename-template cleaning pass (`cleanTemplate` of
`TemplateInput.tsx`, applied after variable substitution) maps every input
to a string where each of the characters `/ \ < > : " | ? *` has been
replaced by `_` (so none of them remains, and a replaced character leaves
an underscore in its place), every run of two or more consecutive
underscores is collapsed to one (no two adjacent underscores remain), and
leading and trailing underscores and spaces are removed (the first and
last characters are neither `_` nor a space). -/
theorem claim_C2_filename_cleaning (t : List Char) :
    (∀ c ∈ cleanTemplate t, c ∉ badChars) ∧
    (cleanTemplate t).Chain' NotBothU ∧
    (∀ c, (cleanTemplate t).head? = some c → isTrimCh c = false) ∧
    (∀ c, (cleanTemplate t).getLast? = some c → isTrimCh c = false) ∧
    (∀ c ∈ badChars, cleanTemplate ('a' :: c :: 'b' :: []) =
      'a' :: '_' :: 'b' :: []) := by
  obtain ⟨h1, h2, h3, h4⟩ := cleanTemplate_props t
  exact ⟨h1, h2, h3, h4, by decide⟩

/-- Witness for C2: on the input `a//b_` the cleaning yields `a_b`; its
member `a` is not a replaced character, its head and last characters are
not trimmed ones. -/
theorem claim_C2_filename_cleaning_witness :
    'a' ∉ badChars ∧ isTrimCh 'a' = false ∧ isTrimCh 'b' = false := by
  obtain ⟨h1, _, h3, h4, _⟩ :=
    claim_C2_filename_cleaning ('a' :: '/' :: '/' :: 'b' :: '_' :: [])
  exact ⟨h1 'a' (by decide), h3 'a' (by decide), h4 'b' (by decide)⟩

/-- C3 is false as stated: rendering is not idempotent for every template
and assignment.  Substituting the empty `title` into `{da{title}te}` leaves
`{date}` in the output of the first render, and the second render substitutes it
again, yielding `2025-01-15`. -/
theorem claim_C3_counterexample :
    generatePreview c3Vars (generatePreview c3Vars c3T) ≠
      generatePreview c3Vars c3T := by decide

/-- C3 as amended: rendering is idempotent for every template and
assignment whose substitution pass leaves the output of the first render
unchanged (in particular whenever no variable value creates or completes a
further `\x7bvar\x7d` token); rendering an already-clean string again
produces the same string. -/
theorem claim_C3_render_idempotent (vars : List (List Char × List Char))
    (t : List Char)
    (h : substVars vars (generatePreview vars t) = generatePreview vars t) :
    generatePreview vars (generatePreview vars t) = generatePreview vars t := by
  have key : cleanTemplate (generatePreview vars t) = generatePreview vars t ∧
      generatePreview vars t ≠ [] := by
    rw [generatePreview]
    by_cases hp : cleanTemplate (substVars vars t) = []
    · rw [if_pos hp]
      exact ⟨by decide, by decide⟩
    · rw [if_neg hp]
      exact ⟨cleanTemplate_idem _, hp⟩
  rw [generatePreview, h, key.1, if_neg key.2]

/-- Witness for C3: the template `{date}` under the assignment
`date ↦ 2025-01-15` renders to `2025-01-15`, whose re-substitution is
itself, so the amended theorem applies. -/
theorem claim_C3_render_idempotent_witness :
    generatePreview [("date".toList, "2025-01-15".toList)]
        (generatePreview [("date".toList, "2025-01-15".toList)]
          (varToken "date".toList)) =
      generatePreview [("date".toList, "2025-01-15".toList)]
        (varToken "date".toList) :=
  claim_C3_render_idempotent _ _ (by decide)

theorem bestQueued_mem {l : List QueueItem} {it : QueueItem} :
    bestQueued l = some it → it ∈ l := by
  induction l with
  | nil => intro h; simp [bestQueued] at h
  | cons a rest ih =>
      intro h
      rw [bestQueued] at h
      split at h
      · simp only [Option.some.injEq] at h
        subst h; simp
      · rename_i b hb
        split at h <;> simp only [Option.some.injEq] at h <;> subst h
        · exact List.mem_cons_of_mem _ (ih hb)
        · simp

theorem claimNext_spec {now : Nat} {s : QueueState} {it : QueueItem}
    {s' : QueueState} (h : claimNext now s = (some it, s')) :
    ∃ b ∈ s.items, b.status = QStatus.queued ∧ it = claimMark now b ∧
      s'.items = s.items.map fun j => if j.id = b.id then claimMark now j else j := by
  rw [claimNext] at h
  split at h
  · exact absurd h.symm (by simp)
  · rename_i b hb
    simp only [Prod.mk.injEq, Option.some.injEq] at h
    have hbmem := bestQueued_mem hb
    refine ⟨b, (List.mem_filter.1 hbmem).1, ?_, h.1.symm, ?_⟩
    · have := (List.mem_filter.1 hbmem).2
      simpa [isQueuedIt] using this
    · rw [← h.2]

theorem claimNext_ids {now : Nat} {s : QueueState} {it : QueueItem}
    {s' : QueueState} (h : claimNext now s = (some it, s')) :
    s'.items.map QueueItem.id = s.items.map QueueItem.id := by
  obtain ⟨b, _, _, _, hs'⟩ := claimNext_spec h
  rw [hs', List.map_map]
  apply List.map_congr_left
  intro j _
  by_cases hj : j.id = b.id <;> simp [hj, claimMark]

theorem claimNext_keeps_processing {now : Nat} {s : QueueState}
    {it : QueueItem} {s' : QueueState} {i : Nat}
    (h : claimNext now s = (some it, s')) (hp : IdProcessing s i) :
    IdProcessing s' i := by
  obtain ⟨b, _, _, _, hs'⟩ := claimNext_spec h
  obtain ⟨j, hjmem, hjid, hjst⟩ := hp
  refine ⟨if j.id = b.id then claimMark now j else j, ?_, ?_, ?_⟩
  · rw [hs']
    exact List.mem_map_of_mem _ hjmem
  · by_cases hj : j.id = b.id
    · rw [if_pos hj]; simpa [claimMark] using hjid
    · rw [if_neg hj]; exact hjid
  · by_cases hj : j.id = b.id
    · rw [if_pos hj]; rfl
    · rw [if_neg hj]; exact hjst

theorem claimNext_makes_processing {now : Nat} {s : QueueState}
    {it : QueueItem} {s' : QueueState}
    (h : claimNext now s = (some it, s')) : IdProcessing s' it.id := by
  obtain ⟨b, hbmem, _, hit, hs'⟩ := claimNext_spec h
  refine ⟨claimMark now b, ?_, ?_⟩
  · rw [hs']
    have : claimMark now b = if b.id = b.id then claimMark now b else b := by simp
    rw [this]
    exact List.mem_map_of_mem _ hbmem
  · subst hit
    exact ⟨rfl, rfl⟩

theorem claimNext_not_processing {now : Nat} {s : QueueState}
    {it : QueueItem} {s' : QueueState} {i : Nat}
    (hids : (s.items.map QueueItem.id).Nodup)
    (h : claimNext now s = (some it, s')) (hp : IdProcessing s i) :
    it.id ≠ i := by
  obtain ⟨b, hbmem, hbst, hit, _⟩ := claimNext_spec h
  obtain ⟨j, hjmem, hjid, hjst⟩ := hp
  intro hcontra
  have hbid : b.id = i := by
    subst hit
    exact hcontra
  have : b = j := List.inj_on_of_nodup_map hids hbmem hjmem (by rw [hbid, hjid])
  rw [this, hjst] at hbst
  exact QStatus.noConfusion hbst

theorem notMem_claimRun {now : Nat} {i : Nat} :
    ∀ (n : Nat) (s : QueueState), (s.items.map QueueItem.id).Nodup →
      IdProcessing s i → i ∉ claimRun now s n := by
  intro n
  induction n with
  | zero => intro s _ _; simp [claimRun]
  | succ n ih =>
      intro s hids hp
      rw [claimRun]
      rcases hc : claimNext now s with ⟨_ | it, s'⟩
      · simp
      · simp only [List.mem_cons, not_or]
        refine ⟨fun hcontra => claimNext_not_processing hids hc hp hcontra.symm, ?_⟩
        exact ih s' (by rw [claimNext_ids hc]; exact hids)
          (claimNext_keeps_processing hc hp)

theorem claimRun_nodup {now : Nat} :
    ∀ (n : Nat) (s : QueueState), (s.items.map QueueItem.id).Nodup →
      (claimRun now s n).Nodup := by
  intro n
  induction n with
  | zero => intro s _; simp [claimRun]
  | succ n ih =>
      intro s hids
      rw [claimRun]
      rcases hc : claimNext now s with ⟨_ | it, s'⟩
      · simp
      · have hids' : (s'.items.map QueueItem.id).Nodup := by
          rw [claimNext_ids hc]; exact hids
        exact List.nodup_cons.2
          ⟨notMem_claimRun n s' hids' (claimNext_makes_processing hc),
           ih s' hids'⟩

/-- C1: for every sequence of concurrent `claimNext` calls on a Queue Store
whose item ids are distinct, no two calls return a `QueueItem` with the
same id while both claims are outstanding: a run of consecutive atomic
claims (nothing completes, fails or requeues in between, so every claim
stays outstanding) hands out pairwise-distinct ids; and each successful
`claimNext` atomically returns a single item that was `queued`, flipped to
`processing` with `startedAt` set, the store recording it as `processing`. -/
theorem claim_C1_claimNext_unique (now n : Nat) (s : QueueState)
    (hids : (s.items.map QueueItem.id).Nodup) :
    (claimRun now s n).Nodup ∧
    (∀ it s', claimNext now s = (some it, s') →
      it.status = QStatus.processing ∧ it.startedAt = some now ∧
      ∃ j ∈ s.items, j.status = QStatus.queued ∧ it.id = j.id ∧
        IdProcessing s' it.id) := by
  refine ⟨claimRun_nodup n s hids, ?_⟩
  intro it s' h
  obtain ⟨b, hbmem, hbst, hit, _⟩ := claimNext_spec h
  subst hit
  exact ⟨rfl, rfl, b, hbmem, hbst, rfl, claimNext_makes_processing h⟩

/-- Witness for C1: three consecutive claims on the demonstration store
return pairwise-distinct ids. -/
theorem claim_C1_claimNext_unique_witness : (claimRun 5 demoQueue 3).Nodup :=
  (claim_C1_claimNext_unique 5 3 demoQueue (by decide)).1

theorem countP_filter_inFlight (p : QueueItem → Bool) (l : List QueueItem)
    (hp : ∀ it, p it = true → inFlight it = true) :
    (l.filter inFlight).countP p = l.countP p := by
  induction l with
  | nil => rfl
  | cons a rest ih =>
      by_cases hf : inFlight a
      · rw [List.filter_cons_of_pos hf, List.countP_cons, List.countP_cons, ih]
      · rw [List.filter_cons_of_neg (by simpa using hf), List.countP_cons, ih]
        have hpa : p a = false := by
          cases hpb : p a
          · rfl
          · exact absurd (hp a hpb) (by simpa using hf)
        simp [hpa]

theorem countP_filter_terminal (p : QueueItem → Bool) (l : List QueueItem)
    (hp : ∀ it, inFlight it = true → p it = false) :
    (l.filter inFlight).countP p = 0 := by
  rw [List.countP_eq_zero]
  intro a ha
  simp [hp a (List.of_mem_filter ha)]

/-- C7: the stats-reset operation clears only the completed and failed
records: the completed and failed counters become 0, the queued and
processing counters are unchanged, every in-flight (queued or processing)
item survives the reset untouched, and nothing else appears — the reset
store holds exactly the in-flight items of the old store. -/
theorem claim_C7_reset_frame (s : QueueState) :
    (stats (resetStats s)).completed = 0 ∧
    (stats (resetStats s)).failed = 0 ∧
    (stats (resetStats s)).queued = (stats s).queued ∧
    (stats (resetStats s)).processing = (stats s).processing ∧
    (∀ it ∈ s.items, inFlight it = true → it ∈ (resetStats s).items) ∧
    (∀ it ∈ (resetStats s).items, it ∈ s.items ∧ inFlight it = true) := by
  refine ⟨?_, ?_, ?_, ?_, ?_, ?_⟩
  · apply countP_filter_terminal
    intro it h
    rcases hst : it.status <;> simp [inFlight, hst] at h ⊢
  · apply countP_filter_terminal
    intro it h
    rcases hst : it.status <;> simp [inFlight, hst] at h ⊢
  · apply countP_filter_inFlight
    intro it h
    simp only [decide_eq_true_eq] at h
    simp [inFlight, h]
  · apply countP_filter_inFlight
    intro it h
    simp only [decide_eq_true_eq] at h
    simp [inFlight, h]
  · intro it hmem hin
    exact List.mem_filter.2 ⟨hmem, hin⟩
  · intro it hmem
    exact ⟨(List.mem_filter.1 hmem).1, (List.mem_filter.1 hmem).2⟩

/-- Witness for C7: on the store holding a completed and a failed record
besides the in-flight items, the reset zeroes the completed counter and
keeps the queued item. -/
theorem claim_C7_reset_frame_witness :
    (stats (resetStats c7Demo)).completed = 0 ∧
    { id := 1, documentId := 11, priority := 0, status := QStatus.queued,
      queuedAt := 1, startedAt := none, completedAt := none,
      retryCount := 0, lastError := (none : Option (List Char)) } ∈
      (resetStats c7Demo).items :=
  ⟨(claim_C7_reset_frame c7Demo).1,
   (claim_C7_reset_frame c7Demo).2.2.2.2.1 _ (by decide) (by decide)⟩

/-- C5: `overallConfidence` is the unweighted mean of exactly the produced
field confidences — an absent field changes neither the sum nor the count
(dropping a `none` leaves the aggregate unchanged) — and on the
example of the spec, `{0.9, 0.8, absent, 0.6}`, it yields `(0.9+0.8+0.6)/3 = 23/30`,
which with `approvalThreshold = 0.70` and the approval workflow disabled
decides auto-apply. -/
theorem claim_C5_confidence_mean :
    (∀ l : List (Option ℚ), presentConfidences l ≠ [] →
      overallConfidence l =
        some ((presentConfidences l).sum / (presentConfidences l).length)) ∧
    (∀ l : List (Option ℚ), overallConfidence (none :: l) = overallConfidence l) ∧
    (∀ (x : ℚ) (l : List (Option ℚ)),
      presentConfidences (some x :: l) = x :: presentConfidences l) ∧
    overallConfidence [some (9/10), some (8/10), none, some (6/10)] =
      some (23/30) ∧
    gateDecision (23/30) (7/10) false = GateDecision.autoApply := by
  refine ⟨?_, ?_, ?_, ?_, ?_⟩
  · intro l hl
    rw [overallConfidence, if_neg hl]
  · intro l
    rw [overallConfidence, overallConfidence]
    have h : presentConfidences (none :: l) = presentConfidences l := by
      simp [presentConfidences]
    rw [h]
  · intro x l
    simp [presentConfidences]
  · rw [overallConfidence, if_neg (by simp [presentConfidences])]
    have hpc : presentConfidences [some (9/10), some (8/10), none, some (6/10)] =
        [9/10, 8/10, 6/10] := by simp [presentConfidences]
    rw [hpc]
    simp [List.sum_cons]
    norm_num
  · rw [gateDecision, if_neg (by simp), if_pos (by norm_num)]

/-- Witness for C5: the general mean formula applied to the example list
from the spec, whose produced fields are nonempty. -/
theorem claim_C5_confidence_mean_witness :
    overallConfidence [some (9/10), some (8/10), none, some (6/10)] =
      some ((presentConfidences
          [some (9/10), some (8/10), none, some (6/10)]).sum /
        (presentConfidences
          [some (9/10), some (8/10), none, some (6/10)]).length) :=
  claim_C5_confidence_mean.1 _ (by simp [presentConfidences])

/-- C6: the manual processing trigger carries the supplied limit in the
request (defaulting to 10 when omitted), and every response value carries
the counts `queued`, `total_found`, `already_processed`, `already_queued`
together with a `message` — nothing else. -/
theorem claim_C6_process_now :
    (processNowRequest none).limit = 10 ∧
    (∀ l : Nat, (processNowRequest (some l)).limit = l) ∧
    (∀ r : ProcessNowResponse,
      r = ⟨r.message, r.queued, r.total_found, r.already_processed,
        r.already_queued⟩) :=
  ⟨rfl, fun _ => rfl, fun _ => rfl⟩

/-- C8: the confidence trend is a pure read-time function of the two
stored daily averages: for non-null today/yesterday values it produces a
trend that is neutral exactly when their absolute difference is below
0.01 and otherwise marks an improvement exactly when the value of today
exceeds the value of yesterday; a null on either side produces no trend. -/
theorem claim_C8_confidence_trend :
    (∀ t y : ℚ, ∃ r, calculateConfidenceTrend (some t) (some y) = some r ∧
      (r.isNeutral = true ↔ |t - y| < 1/100) ∧
      (r.isNeutral = false → (r.isImprovement = true ↔ y < t))) ∧
    (∀ y, calculateConfidenceTrend none y = none) ∧
    (∀ t, calculateConfidenceTrend t none = none) := by
  refine ⟨?_, ?_, ?_⟩
  · intro t y
    by_cases h : |t - y| < 1/100
    · refine ⟨⟨false, true⟩, ?_, ?_, ?_⟩
      · rw [calculateConfidenceTrend]
        rw [if_pos h]
      · simpa using h
      · intro hcontra
        exact absurd hcontra (by simp)
    · refine ⟨⟨decide (0 < t - y), false⟩, ?_, ?_, ?_⟩
      · rw [calculateConfidenceTrend]
        rw [if_neg h]
      · simpa using h
      · intro _
        simp [sub_pos]
  · intro y; rfl
  · intro t; cases t <;> rfl

/-- Witness for C8: today 0.8 vs yesterday 0.6 — not neutral, and an
improvement since today exceeds yesterday. -/
theorem claim_C8_confidence_trend_witness :
    ∃ r, calculateConfidenceTrend (some (8/10)) (some (6/10)) = some r ∧
      r.isNeutral = false ∧ r.isImprovement = true := by
  obtain ⟨r, hr, hneu, himp⟩ :=
    claim_C8_confidence_trend.1 (8/10) (6/10)
  have habs : |(8:ℚ)/10 - 6/10| = 1/5 := by
    rw [show (8:ℚ)/10 - 6/10 = 1/5 by norm_num]
    exact abs_of_pos (by norm_num)
  have hnf : r.isNeutral = false := by
    cases hb : r.isNeutral
    · rfl
    · have hlt := hneu.1 hb
      rw [habs] at hlt
      norm_num at hlt
  exact ⟨r, hr, hnf, (himp hnf).2 (by norm_num)⟩

/-- C9: `documentsApi.list` returns `total` equal to the length of the
returned `documents` array — the current page, not the overall matching
count of the backend — so whenever the returned page respects a supplied
`limit` (returns at most `limit` documents), `total` never exceeds that
limit. -/
theorem claim_C9_list_total {α : Type} (respData : List α) :
    (wrapDocumentsList respData).total =
      (wrapDocumentsList respData).documents.length ∧
    (∀ limit : Nat, respData.length ≤ limit →
      (wrapDocumentsList respData).total ≤ limit) :=
  ⟨rfl, fun _ h => h⟩

/-- Witness for C9: a three-element page with limit 5. -/
theorem claim_C9_list_total_witness :
    (wrapDocumentsList [10, 20, 30]).total ≤ 5 :=
  (claim_C9_list_total [10, 20, 30]).2 5 (by decide)

end NgxIntel
